import Mathlib

/-!
# FlatUI core — shallow embedding and verification

A shallow embedding of the FlatUI immediate-mode GUI engine
(`src/include/flatui/flatui.h`) together with proofs of the design
properties stated in the specification.

The repository ships only the public header; every behaviour that lives in
the (absent) implementation file is modelled from the specification text,
and each such definition carries a doc comment starting with
`Modelled from the spec:`.
-/

namespace FlatUI

/-! ## Event flags (enum `Event`, flatui.h lines 111–120) -/

/-- `kEventNone = 0` (flatui.h). -/
def kEventNone : Nat := 0

/-- `kEventWentUp = 1` (flatui.h). -/
def kEventWentUp : Nat := 1

/-- `kEventWentDown = 2` (flatui.h). -/
def kEventWentDown : Nat := 2

/-- `kEventIsDown = 4` (flatui.h). -/
def kEventIsDown : Nat := 4

/-- `kEventStartDrag = 8` (flatui.h). -/
def kEventStartDrag : Nat := 8

/-- `kEventEndDrag = 16` (flatui.h). -/
def kEventEndDrag : Nat := 16

/-- `kEventIsDragging = 32` (flatui.h). -/
def kEventIsDragging : Nat := 32

/-- `kEventHover = 64` (flatui.h). -/
def kEventHover : Nat := 64

/-! ## Pointer samples and the interaction state machine

Modelled from the spec (§4.4 Interaction State Machine); the
implementation file is not part of the repository, only its header. -/

/-- Modelled from the spec: one per-frame sample of a pointer device as
exposed by the input sampler (§6): position, down state, the down/up
transitions of this frame, and whether the sample is touch-originated. -/
structure PointerFrame where
  posX : Int
  posY : Int
  down : Bool
  wentDown : Bool
  wentUp : Bool
  isTouch : Bool
deriving DecidableEq

/-- Modelled from the spec: the per-identifier interaction state across a
pointer index, `Idle → Pressed → {Released, Dragging} → Idle` (§4.4).
`pressed` remembers the identifier that received the went-down together
with the press position (used for the drag-start threshold). -/
inductive MState
  | idle
  | pressed (owner : Nat) (originX originY : Int)
  | dragging (owner : Nat)
deriving DecidableEq

/-- Squared Euclidean distance of the current pointer position from the
press origin, in physical pixels; compared against the squared
drag-start threshold. -/
def dragDist2 (ox oy x y : Int) : Int := (x - ox) * (x - ox) + (y - oy) * (y - oy)

/-- Modelled from the spec: hover is independent of the press state
machine, emitted whenever a non-touch pointer is within bounds and no
other element currently captures that pointer (§4.4); it never occurs for
touch-originated samples.  `hit` is the hit-test of the placement pass
(position ↦ the interactive identifier under it, if any), `cap` the
capture holder for this pointer index. -/
def hoverFlag (hit : Int → Int → Option Nat) (cap : Option Nat)
    (f : PointerFrame) (e : Nat) : Nat :=
  if f.isTouch = false ∧ f.down = false ∧ hit f.posX f.posY = some e ∧
      (cap = none ∨ cap = some e) then kEventHover else 0

/-- Modelled from the spec: the press/drag transitions of §4.4 for one
pointer index.  Returns the successor state together with the press/drag
event flags delivered to each element identifier this frame:
`Idle → Pressed` on a down inside the hit bounds (went-down, or
went-down|went-up when the release lands in the same frame);
`Pressed → Released` on release, emitting went-up to the identifier that
received the down regardless of position; `Pressed → Dragging` once the
movement since the press reaches the threshold `thr` (start-drag);
`Dragging → Idle` on release (end-drag); otherwise is-down / is-dragging
while held. -/
def pressEvents (thr : Int) (hit : Int → Int → Option Nat)
    (s : MState) (f : PointerFrame) : MState × (Nat → Nat) :=
  match s with
  | .idle =>
    if f.wentDown = true then
      match hit f.posX f.posY with
      | some a =>
        if f.wentUp = true then
          (.idle, fun e => if e = a then kEventWentDown ||| kEventWentUp else 0)
        else
          (.pressed a f.posX f.posY, fun e => if e = a then kEventWentDown else 0)
      | none => (.idle, fun _ => 0)
    else (.idle, fun _ => 0)
  | .pressed a ox oy =>
    if f.wentUp = true then
      (.idle, fun e => if e = a then kEventWentUp else 0)
    else if f.down = true then
      if thr * thr ≤ dragDist2 ox oy f.posX f.posY then
        (.dragging a, fun e => if e = a then kEventStartDrag else 0)
      else
        (.pressed a ox oy, fun e => if e = a then kEventIsDown else 0)
    else (.idle, fun _ => 0)
  | .dragging a =>
    if f.wentUp = true then
      (.idle, fun e => if e = a then kEventEndDrag else 0)
    else if f.down = true then
      (.dragging a, fun e => if e = a then kEventIsDragging else 0)
    else (.idle, fun _ => 0)

/-- Modelled from the spec: one frame of the interaction state machine;
the press/drag flags of `pressEvents` combined (bitwise or, as the header
documents for `Event`) with the independent hover flag. -/
def stepMachine (thr : Int) (hit : Int → Int → Option Nat) (cap : Option Nat)
    (s : MState) (f : PointerFrame) : MState × (Nat → Nat) :=
  let r := pressEvents thr hit s f
  (r.1, fun e => r.2 e ||| hoverFlag hit cap f e)

/-- Modelled from the spec: capture is released when the press/drag state
machine returns to `Idle` (§4.4: events route to the capture holder
"until released explicitly or the underlying press/drag state machine
returns to Idle"). -/
def captureAfterStep (cap : Option Nat) (s : MState) : Option Nat :=
  match s with
  | .idle => none
  | _ => cap

/-- Modelled from the spec: the two traversal passes of a frame (§2):
pass 1 measures, pass 2 places and resolves events. -/
inductive Phase
  | measuring
  | placing
deriving DecidableEq

/-- Modelled from the spec: `CheckEvent` — during the measurement pass
every event query returns the neutral value `kEventNone` (flatui.h:
"This is also returned by all elements during the layout pass"); during
the placement pass it reports the flags the interaction state machine
computed for the queried identifier this frame. -/
def checkEvent (phase : Phase) (thr : Int) (hit : Int → Int → Option Nat)
    (cap : Option Nat) (s : MState) (f : PointerFrame) (eid : Nat) : Nat :=
  match phase with
  | .measuring => kEventNone
  | .placing => (stepMachine thr hit cap s f).2 eid

/-- Modelled from the spec: running the interaction state machine over a
sequence of per-frame pointer samples, collecting each frame's event
assignment. -/
def runMachine (thr : Int) (hit : Int → Int → Option Nat) (cap : Option Nat)
    (s : MState) : List PointerFrame → MState × List (Nat → Nat)
  | [] => (s, [])
  | f :: fs =>
    let r := stepMachine thr hit cap s f
    let rest := runMachine thr hit cap r.1 fs
    (rest.1, r.2 :: rest.2)

/-- A frame in which the pointer is held down with no transition: the
"subsequent frames" of a press episode. -/
def Held (f : PointerFrame) : Prop :=
  f.down = true ∧ f.wentDown = false ∧ f.wentUp = false

instance (f : PointerFrame) : Decidable (Held f) := by
  unfold Held; infer_instance

/-! ## Layout measurement

Modelled from the spec (§4.2 Group Node Builder, §4.3 Layout Engine,
measurement pass): the builder accumulates child extents one child at a
time; a group's main-axis size adds spacing between consecutive children
and the margins, its cross-axis size is the accumulated maximum plus
margins. -/

/-- Layout direction of a group (enum `Direction`, flatui.h). -/
inductive Dir
  | horizontal
  | vertical
  | overlay
deriving DecidableEq

/-- Four-sided margin in virtual units (struct `Margin`, flatui.h: the
internal layout is left, top, right, bottom). -/
structure Margin4 where
  left : ℚ
  top : ℚ
  right : ℚ
  bottom : ℚ
deriving DecidableEq

/-- Modelled from the spec: the running extent accumulator of the Group
Node Builder — main-axis extent so far, cross-axis extent so far, and
the number of children seen. -/
structure Accum where
  main : ℚ
  cross : ℚ
  count : Nat
deriving DecidableEq

/-- Modelled from the spec: appending one child of size `sz = (main,
cross)` to the accumulator: the main extent grows by the child's main
extent plus the inter-child spacing (no spacing before the first child),
the cross extent is the maximum so far. -/
def accStep (spacing : ℚ) (a : Accum) (sz : ℚ × ℚ) : Accum :=
  { main := a.main + (if a.count = 0 then 0 else spacing) + sz.1
    cross := max a.cross sz.2
    count := a.count + 1 }

/-- Modelled from the spec: accumulating all children of a group in call
order. -/
def accumulate (spacing : ℚ) (szs : List (ℚ × ℚ)) : Accum :=
  szs.foldl (accStep spacing) ⟨0, 0, 0⟩

/-- Modelled from the spec: the per-pass group/element tree built by the
Group Node Builder: a leaf element with its virtual size, or a group
with a direction, inter-child spacing, margin, and ordered children. -/
inductive Widget
  | elem (w h : ℚ)
  | group (dir : Dir) (spacing : ℚ) (margin : Margin4) (children : List Widget)

/-- Modelled from the spec: the measurement pass (§4.3, bottom-up).  A
leaf's size is its own; a horizontal group accumulates child widths
along x (spacing between consecutive children) and maximizes heights; a
vertical group symmetrically; an overlay group maximizes on both axes;
margins are added on both axes. -/
def measure : Widget → ℚ × ℚ
  | .elem w h => (w, h)
  | .group dir spacing m cs =>
    let szs := cs.attach.map (fun c => measure c.1)
    match dir with
    | .horizontal =>
      let a := accumulate spacing szs
      (a.main + m.left + m.right, a.cross + m.top + m.bottom)
    | .vertical =>
      let a := accumulate spacing (szs.map Prod.swap)
      (a.cross + m.left + m.right, a.main + m.top + m.bottom)
    | .overlay =>
      let a := accumulate 0 (szs.map (fun sz => (0, sz.1)))
      let b := accumulate 0 (szs.map (fun sz => (0, sz.2)))
      (a.cross + m.left + m.right, b.cross + m.top + m.bottom)
termination_by w => sizeOf w
decreasing_by
  simp_wf
  have h := List.sizeOf_lt_of_mem c.2
  omega

/-! ## Coordinate mapper

Modelled from the spec (§4.1): `Scale = physicalMinDimension /
virtualResolution`; virtual coordinates scale to physical ones by the
scale factor.  The model uses exact rational arithmetic. -/

/-- Modelled from the spec: `GetScale()` — the physical minimum screen
dimension divided by the virtual resolution. -/
def getScale (physMin virtualRes : ℚ) : ℚ := physMin / virtualRes

/-- Modelled from the spec: `VirtualToPhysical` — multiply both
coordinates by the scale factor. -/
def virtualToPhysical (scale : ℚ) (v : ℚ × ℚ) : ℚ × ℚ :=
  (v.1 * scale, v.2 * scale)

/-- Modelled from the spec: `PhysicalToVirtual` — divide both
coordinates by the scale factor. -/
def physicalToVirtual (scale : ℚ) (p : ℚ × ℚ) : ℚ × ℚ :=
  (p.1 / scale, p.2 / scale)

/-! ## Scrolling

Modelled from the spec (§4.5, §8): a scroll region mutates the
caller-owned offset by the speed-scaled input delta, clamped to
`[0, contentExtent - windowExtent]`. -/

/-- Modelled from the spec: clamping the scroll offset to
`[0, content - window]`. -/
def clampOffset (content window off : ℚ) : ℚ :=
  max 0 (min off (content - window))

/-- Modelled from the spec: one frame of scroll-offset update — apply
the speed-scaled input delta to the caller-owned offset, then clamp. -/
def scrollStep (content window speed off delta : ℚ) : ℚ :=
  clampOffset content window (off + speed * delta)

/-! ## Pointer capture

Modelled from the spec (§4.4): at most one capture holder per pointer
index, last-writer-wins on competing requests, exclusive routing to the
holder. -/

/-- The capture table: pointer index ↦ the capturing element identifier,
if any. -/
def CaptureState : Type := Nat → Option Nat

/-- Modelled from the spec: `CapturePointer(element_id)` — the element
becomes the capture holder for the pointer index, replacing any previous
holder for that index. -/
def capturePointer (st : CaptureState) (idx : Nat) (eid : Nat) : CaptureState :=
  fun i => if i = idx then some eid else st i

/-- Modelled from the spec: `ReleasePointer()` — clears the capture
holder for the pointer index. -/
def releasePointer (st : CaptureState) (idx : Nat) : CaptureState :=
  fun i => if i = idx then none else st i

/-- Modelled from the spec: whether pointer events of a pointer with
capture holder `cap` are routed to element `e`: with no holder everyone
is eligible, with a holder only the holder receives events. -/
def routesEventTo (cap : Option Nat) (e : Nat) : Bool :=
  match cap with
  | none => true
  | some c => e = c

/-- Modelled from the spec: `GetCapturedPointerIndex()` — the index of
the captured pointer, or `-1` if no pointer is captured (flatui.h
lines 443–453). -/
def getCapturedPointerIndex (captured : Option Nat) : Int :=
  match captured with
  | none => -1
  | some i => (i : Int)

/-! ## Theorems for the specification claims -/

/-- C4: the event flags returned by `CheckEvent` form a bitset with
exactly the values none=0, went-up=1, went-down=2, is-down=4,
start-drag=8, end-drag=16, is-dragging=32, hover=64; the nonzero flags
are pairwise bit-disjoint, and flags of one frame combine by bitwise or,
e.g. a press and release within one frame yields
went-down|went-up = 3. -/
theorem event_flags_bitset :
    kEventNone = 0 ∧ kEventWentUp = 1 ∧ kEventWentDown = 2 ∧
    kEventIsDown = 4 ∧ kEventStartDrag = 8 ∧ kEventEndDrag = 16 ∧
    kEventIsDragging = 32 ∧ kEventHover = 64 ∧
    List.Pairwise (fun a b => a &&& b = 0)
      [kEventWentUp, kEventWentDown, kEventIsDown, kEventStartDrag,
       kEventEndDrag, kEventIsDragging, kEventHover] ∧
    kEventWentDown ||| kEventWentUp = 3 := by
  refine ⟨rfl, rfl, rfl, rfl, rfl, rfl, rfl, rfl, ?_, rfl⟩
  decide

/-- C1: during the measurement (layout) pass — the first invocation of
the caller's gui_definition callback — every `CheckEvent` query returns
the neutral value `kEventNone`, for every element identifier, regardless
of the pointer sample, the interaction state and the capture holder. -/
theorem checkEvent_measuring_neutral (thr : Int)
    (hit : Int → Int → Option Nat) (cap : Option Nat) (s : MState)
    (f : PointerFrame) (eid : Nat) :
    checkEvent Phase.measuring thr hit cap s f eid = kEventNone := rfl

/-- C10: `GetCapturedPointerIndex` returns `-1` if and only if no
pointer is currently captured; otherwise it returns the index of the
captured pointer. -/
theorem getCapturedPointerIndex_neg_one_iff :
    getCapturedPointerIndex none = -1 ∧
    (∀ i : Nat, getCapturedPointerIndex (some i) = (i : Int)) ∧
    (∀ captured : Option Nat,
      getCapturedPointerIndex captured = -1 ↔ captured = none) := by
  refine ⟨rfl, fun i => rfl, fun captured => ?_⟩
  cases captured with
  | none => simp [getCapturedPointerIndex]
  | some i =>
    simp only [getCapturedPointerIndex]
    constructor
    · intro h
      exfalso
      omega
    · intro h
      exact absurd h (by simp)

/-- C9: with a positive virtual resolution and a positive physical
minimum dimension, the scale factor equals
physicalMinDimension / virtualResolution, and converting a physical
point to virtual coordinates and back is the identity (the model
computes in exact rational arithmetic, so the round-trip is exact and in
particular within any floating-point tolerance). -/
theorem virtualToPhysical_roundtrip (physMin virtualRes : ℚ) (p : ℚ × ℚ)
    (hp : 0 < physMin) (hv : 0 < virtualRes) :
    getScale physMin virtualRes = physMin / virtualRes ∧
    virtualToPhysical (getScale physMin virtualRes)
      (physicalToVirtual (getScale physMin virtualRes) p) = p := by
  have hs : getScale physMin virtualRes ≠ 0 := by
    unfold getScale
    exact div_ne_zero (ne_of_gt hp) (ne_of_gt hv)
  refine ⟨rfl, ?_⟩
  unfold virtualToPhysical physicalToVirtual
  have h1 : p.1 / getScale physMin virtualRes * getScale physMin virtualRes = p.1 :=
    div_mul_cancel₀ _ hs
  have h2 : p.2 / getScale physMin virtualRes * getScale physMin virtualRes = p.2 :=
    div_mul_cancel₀ _ hs
  simp [h1, h2]

/-- Witness for C9 at physMin = 1920, virtualRes = 1000,
p = (12, 34). -/
theorem virtualToPhysical_roundtrip_witness :
    (0 : ℚ) < 1920 ∧ (0 : ℚ) < 1000 ∧
    virtualToPhysical (getScale 1920 1000)
      (physicalToVirtual (getScale 1920 1000) ((12 : ℚ), (34 : ℚ))) =
      ((12 : ℚ), (34 : ℚ)) :=
  ⟨by norm_num, by norm_num,
    (virtualToPhysical_roundtrip 1920 1000 (12, 34) (by norm_num)
      (by norm_num)).2⟩

/-- C7: when the content extent is at least the window extent and the
incoming caller-owned offset is already in range, the offset written
back each frame lies in [0, content - window] regardless of the
magnitude of the requested (speed-scaled) delta, and a zero input delta
leaves the offset unchanged. -/
theorem scrollStep_clamped_idempotent (content window speed off delta : ℚ)
    (hw : window ≤ content) (h0 : 0 ≤ off) (hcw : off ≤ content - window) :
    (0 ≤ scrollStep content window speed off delta ∧
      scrollStep content window speed off delta ≤ content - window) ∧
    scrollStep content window speed off 0 = off := by
  unfold scrollStep clampOffset
  refine ⟨⟨le_max_left 0 _, ?_⟩, ?_⟩
  · exact max_le (by linarith) (min_le_right _ _)
  · rw [mul_zero, add_zero, min_eq_left hcw, max_eq_right h0]

/-- Witness for C7 at content = 10, window = 4, speed = 2, off = 3,
delta = 100. -/
theorem scrollStep_clamped_idempotent_witness :
    (4 : ℚ) ≤ 10 ∧ (0 : ℚ) ≤ 3 ∧ (3 : ℚ) ≤ 10 - 4 ∧
    ((0 ≤ scrollStep 10 4 2 3 100 ∧ scrollStep 10 4 2 3 100 ≤ 10 - 4) ∧
      scrollStep 10 4 2 3 0 = 3) :=
  ⟨by norm_num, by norm_num, by norm_num,
    scrollStep_clamped_idempotent 10 4 2 3 100 (by norm_num) (by norm_num)
      (by norm_num)⟩

/-- C6: at most one identifier holds a pointer's capture at any time
(the holder after `CapturePointer(a)` is exactly `a`); after
`CapturePointer(a)` the pointer's events route exclusively to `a`;
other pointer indices are unaffected; a second `CapturePointer` for the
same pointer index replaces the first holder (last-writer-wins);
`ReleasePointer` clears the holder, and the holder is also cleared when
the press/drag state machine returns to `Idle`. -/
theorem capturePointer_exclusive_lastWriterWins (st : CaptureState)
    (idx a b e : Nat) (cap : Option Nat) :
    (∀ x, capturePointer st idx a idx = some x ↔ x = a) ∧
    (∀ j, capturePointer st idx a j = if j = idx then some a else st j) ∧
    capturePointer (capturePointer st idx a) idx b idx = some b ∧
    (routesEventTo (capturePointer st idx a idx) e = true ↔ e = a) ∧
    releasePointer st idx idx = none ∧
    captureAfterStep cap MState.idle = none := by
  refine ⟨?_, ?_, ?_, ?_, ?_, rfl⟩
  · intro x
    simp [capturePointer, eq_comm]
  · intro j
    simp [capturePointer]
  · simp [capturePointer]
  · simp [capturePointer, routesEventTo]
  · simp [releasePointer]

/-- The press/drag part of the machine only ever delivers one of the
eight press/drag flag combinations — in particular never the hover
bit. -/
lemma pressEvents_apply_mem (thr : Int) (hit : Int → Int → Option Nat)
    (s : MState) (f : PointerFrame) (e : Nat) :
    (pressEvents thr hit s f).2 e ∈
      ([0, kEventWentUp, kEventWentDown, kEventWentDown ||| kEventWentUp,
        kEventIsDown, kEventStartDrag, kEventEndDrag,
        kEventIsDragging] : List Nat) := by
  unfold pressEvents
  repeat' split
  all_goals dsimp only
  all_goals (repeat' split)
  all_goals decide

/-- C2: from the `Pressed` state of identifier `a`, releasing the
pointer emits went-up to exactly `a` — the identifier that received the
corresponding went-down — regardless of the pointer's current position,
and to no other identifier; the machine returns to `Idle`. -/
theorem wentUp_exactly_down_receiver (thr : Int)
    (hit : Int → Int → Option Nat) (cap : Option Nat) (a : Nat)
    (ox oy : Int) (f : PointerFrame) (h : f.wentUp = true) :
    (stepMachine thr hit cap (MState.pressed a ox oy) f).1 = MState.idle ∧
    ∀ e, (stepMachine thr hit cap (MState.pressed a ox oy) f).2 e &&&
        kEventWentUp = if e = a then kEventWentUp else 0 := by
  constructor
  · simp [stepMachine, pressEvents, h]
  · intro e
    simp only [stepMachine, pressEvents, h, if_true]
    unfold hoverFlag
    by_cases he : e = a <;> simp [he] <;> split <;> decide

/-- Witness for C2: pressed owner 7 at origin (0,0), release sample at
(3,4). -/
theorem wentUp_exactly_down_receiver_witness :
    (⟨3, 4, false, false, true, false⟩ : PointerFrame).wentUp = true ∧
    ((stepMachine 5 (fun _ _ => some 7) none (MState.pressed 7 0 0)
        ⟨3, 4, false, false, true, false⟩).1 = MState.idle ∧
      ∀ e, (stepMachine 5 (fun _ _ => some 7) none (MState.pressed 7 0 0)
          ⟨3, 4, false, false, true, false⟩).2 e &&& kEventWentUp =
        if e = 7 then kEventWentUp else 0) :=
  ⟨rfl, wentUp_exactly_down_receiver 5 (fun _ _ => some 7) none 7 0 0
    ⟨3, 4, false, false, true, false⟩ rfl⟩

/-- C8: the hover flag is set for element `e` exactly when the pointer
sample is not touch-originated, the pointer is not down, the hit test
places the pointer inside `e`'s bounds, and no other element captures
that pointer; in particular hover is never emitted for a
touch-originated sample, for any element, in any machine state. -/
theorem hover_nontouch_uncaptured_iff (thr : Int)
    (hit : Int → Int → Option Nat) (cap : Option Nat) (s : MState)
    (f : PointerFrame) (e : Nat) :
    (stepMachine thr hit cap s f).2 e &&& kEventHover ≠ 0 ↔
      (f.isTouch = false ∧ f.down = false ∧ hit f.posX f.posY = some e ∧
        (cap = none ∨ cap = some e)) := by
  have hm := pressEvents_apply_mem thr hit s f e
  simp only [List.mem_cons, List.not_mem_nil, or_false] at hm
  unfold stepMachine
  dsimp only
  unfold hoverFlag
  split
  case isTrue hcond =>
    simp only [hcond, iff_true]
    rcases hm with h | h | h | h | h | h | h | h <;> rw [h] <;> decide
  case isFalse hcond =>
    simp only [hcond, iff_false]
    rcases hm with h | h | h | h | h | h | h | h <;> rw [h] <;> decide

/-- Unfolding the measurement of a horizontal group: child sizes are
accumulated, margins are added on both axes. -/
lemma measure_group_horizontal (s : ℚ) (m : Margin4) (cs : List Widget) :
    measure (Widget.group Dir.horizontal s m cs) =
      ((accumulate s (cs.map measure)).main + m.left + m.right,
       (accumulate s (cs.map measure)).cross + m.top + m.bottom) := by
  rw [measure, List.attach_map_val]

/-- Unfolding the measurement of a vertical group. -/
lemma measure_group_vertical (s : ℚ) (m : Margin4) (cs : List Widget) :
    measure (Widget.group Dir.vertical s m cs) =
      ((accumulate s ((cs.map measure).map Prod.swap)).cross + m.left + m.right,
       (accumulate s ((cs.map measure).map Prod.swap)).main + m.top + m.bottom) := by
  rw [measure, List.attach_map_val]

/-- Closed form of the extent accumulator from a nonempty starting
count: the main extent adds every further child's main extent plus one
spacing per child, the cross extent keeps folding `max`. -/
lemma accumulate_go (spacing : ℚ) (szs : List (ℚ × ℚ)) (a : Accum)
    (h : a.count ≠ 0) :
    (szs.foldl (accStep spacing) a).main =
      a.main + (szs.map Prod.fst).sum + (szs.length : ℚ) * spacing ∧
    (szs.foldl (accStep spacing) a).cross =
      (szs.map Prod.snd).foldl max a.cross := by
  induction szs generalizing a with
  | nil => simp
  | cons sz rest ih =>
    have h' : (accStep spacing a sz).count ≠ 0 := by simp [accStep]
    obtain ⟨h1, h2⟩ := ih (accStep spacing a sz) h'
    constructor
    · rw [List.foldl_cons, h1]
      simp only [accStep, if_neg h, List.map_cons, List.sum_cons,
        List.length_cons]
      push_cast
      ring
    · rw [List.foldl_cons, h2]
      simp [accStep]

/-- The accumulator of a nonempty child list: main extent is the sum of
the children's main extents plus one spacing per gap, cross extent is
the fold of `max` over the children's cross extents seeded with the
first child (clamped below by 0). -/
lemma accumulate_cons (spacing : ℚ) (sz : ℚ × ℚ) (rest : List (ℚ × ℚ)) :
    (accumulate spacing (sz :: rest)).main =
      ((sz :: rest).map Prod.fst).sum + (rest.length : ℚ) * spacing ∧
    (accumulate spacing (sz :: rest)).cross =
      (rest.map Prod.snd).foldl max (max 0 sz.2) := by
  unfold accumulate
  rw [List.foldl_cons]
  have hstep : accStep spacing ⟨0, 0, 0⟩ sz = ⟨sz.1, max 0 sz.2, 1⟩ := by
    simp [accStep]
  rw [hstep]
  obtain ⟨h1, h2⟩ := accumulate_go spacing rest ⟨sz.1, max 0 sz.2, 1⟩ (by simp)
  exact ⟨by rw [h1]; simp, h2⟩

/-- Every list element is bounded by the `max`-fold, and the seed is
too. -/
lemma foldl_max_bounds (l : List ℚ) (init : ℚ) :
    init ≤ l.foldl max init ∧ ∀ x ∈ l, x ≤ l.foldl max init := by
  induction l generalizing init with
  | nil => simp
  | cons y ys ih =>
    obtain ⟨h1, h2⟩ := ih (max init y)
    refine ⟨le_trans (le_max_left _ _) h1, ?_⟩
    intro x hx
    rcases List.mem_cons.mp hx with rfl | hx
    · exact le_trans (le_max_right _ _) h1
    · exact h2 x hx

/-- The `max`-fold is either the seed or one of the list elements. -/
lemma foldl_max_mem (l : List ℚ) (init : ℚ) :
    l.foldl max init = init ∨ l.foldl max init ∈ l := by
  induction l generalizing init with
  | nil => simp
  | cons y ys ih =>
    rw [List.foldl_cons]
    rcases ih (max init y) with h | h
    · rcases max_choice init y with hm | hm
      · left; rw [h, hm]
      · right; rw [h, hm]; exact List.mem_cons_self y ys
    · right; exact List.mem_cons_of_mem y h

/-- C5: for every non-overlay group with a nonempty child list (and
children of nonnegative measured extents, negative sizes being invalid
inputs), the measured size along the layout axis is the sum of the
children's extents along that axis plus (n-1)·spacing plus the margins
on that axis, and the size along the cross axis is the maximum of the
children's cross extents plus the cross-axis margins. -/
theorem group_measure_formula (s : ℚ) (m : Margin4) (cs : List Widget)
    (hne : cs ≠ [])
    (hpos : ∀ c ∈ cs, 0 ≤ (measure c).1 ∧ 0 ≤ (measure c).2) :
    ((measure (Widget.group Dir.horizontal s m cs)).1 =
        (cs.map (fun c => (measure c).1)).sum +
          ((cs.length : ℚ) - 1) * s + m.left + m.right ∧
      ∃ M, (measure (Widget.group Dir.horizontal s m cs)).2 =
          M + m.top + m.bottom ∧
        M ∈ cs.map (fun c => (measure c).2) ∧
        ∀ x ∈ cs.map (fun c => (measure c).2), x ≤ M) ∧
    ((measure (Widget.group Dir.vertical s m cs)).2 =
        (cs.map (fun c => (measure c).2)).sum +
          ((cs.length : ℚ) - 1) * s + m.top + m.bottom ∧
      ∃ M, (measure (Widget.group Dir.vertical s m cs)).1 =
          M + m.left + m.right ∧
        M ∈ cs.map (fun c => (measure c).1) ∧
        ∀ x ∈ cs.map (fun c => (measure c).1), x ≤ M) := by
  rcases cs with _ | ⟨c0, rest⟩
  · exact absurd rfl hne
  obtain ⟨hp0, hrest⟩ := List.forall_mem_cons.mp hpos
  constructor
  · rw [measure_group_horizontal]
    obtain ⟨h1, h2⟩ := accumulate_cons s (measure c0) ((rest.map measure))
    have hmap :
        ((c0 :: rest).map measure) = measure c0 :: rest.map measure := by
      simp
    rw [hmap] at *
    constructor
    · rw [h1]
      simp only [List.map_cons, List.map_map, List.sum_cons,
        List.length_cons, List.length_map, Function.comp_def]
      push_cast
      ring
    · have hm0 : max 0 (measure c0).2 = (measure c0).2 :=
        max_eq_right hp0.2
      refine ⟨(accumulate s (measure c0 :: rest.map measure)).cross, ?_, ?_, ?_⟩
      · rfl
      · rw [h2, hm0]
        rcases foldl_max_mem ((rest.map measure).map Prod.snd)
            ((measure c0).2) with h | h
        · rw [h]
          simp
        · simp only [List.map_map] at h
          simp only [List.map_cons, List.map_map]
          exact List.mem_cons_of_mem _ h
      · intro x hx
        rw [h2, hm0]
        obtain ⟨hinit, hall⟩ :=
          foldl_max_bounds ((rest.map measure).map Prod.snd) ((measure c0).2)
        simp only [List.map_cons, List.mem_cons, List.map_map] at hx
        rcases hx with rfl | hx
        · exact hinit
        · exact hall x (by simpa [List.map_map] using hx)
  · rw [measure_group_vertical]
    obtain ⟨h1, h2⟩ :=
      accumulate_cons s ((measure c0).swap) ((rest.map measure).map Prod.swap)
    have hmap :
        (((c0 :: rest).map measure).map Prod.swap) =
          (measure c0).swap :: (rest.map measure).map Prod.swap := by
      simp
    rw [hmap] at *
    constructor
    · rw [h1]
      simp only [List.map_cons, List.map_map, List.sum_cons,
        List.length_cons, List.length_map, Function.comp_def, Prod.fst_swap]
      push_cast
      ring
    · have hm0 : max 0 ((measure c0).swap).2 = ((measure c0).swap).2 :=
        max_eq_right hp0.1
      refine ⟨(accumulate s
          ((measure c0).swap :: (rest.map measure).map Prod.swap)).cross,
          ?_, ?_, ?_⟩
      · rfl
      · rw [h2, hm0]
        rcases foldl_max_mem (((rest.map measure).map Prod.swap).map Prod.snd)
            (((measure c0).swap).2) with h | h
        · rw [h]
          simp
        · simp only [List.map_map] at h
          simp only [List.map_cons, List.map_map]
          refine List.mem_cons_of_mem _ ?_
          simpa [Function.comp_def] using h
      · intro x hx
        rw [h2, hm0]
        obtain ⟨hinit, hall⟩ :=
          foldl_max_bounds (((rest.map measure).map Prod.swap).map Prod.snd)
            (((measure c0).swap).2)
        simp only [List.map_cons, List.mem_cons, List.map_map] at hx
        rcases hx with rfl | hx
        · simpa using hinit
        · exact hall x (by simpa [Function.comp_def] using hx)

/-- Witness for C5: a group with children of sizes (3,1) and (1,2),
spacing 5, margin (left 1, top 2, right 3, bottom 4). -/
theorem group_measure_formula_witness :
    ([Widget.elem 3 1, Widget.elem 1 2] ≠ ([] : List Widget)) ∧
    (∀ c ∈ [Widget.elem 3 1, Widget.elem 1 2],
      0 ≤ (measure c).1 ∧ 0 ≤ (measure c).2) ∧
    (((measure (Widget.group Dir.horizontal 5 ⟨1, 2, 3, 4⟩
          [Widget.elem 3 1, Widget.elem 1 2])).1 =
        ([Widget.elem 3 1, Widget.elem 1 2].map
            (fun c => (measure c).1)).sum +
          (([Widget.elem 3 1, Widget.elem 1 2].length : ℚ) - 1) * 5 +
          (1 : ℚ) + 3 ∧
      ∃ M, (measure (Widget.group Dir.horizontal 5 ⟨1, 2, 3, 4⟩
            [Widget.elem 3 1, Widget.elem 1 2])).2 = M + 2 + 4 ∧
        M ∈ [Widget.elem 3 1, Widget.elem 1 2].map (fun c => (measure c).2) ∧
        ∀ x ∈ [Widget.elem 3 1, Widget.elem 1 2].map (fun c => (measure c).2),
          x ≤ M) ∧
    ((measure (Widget.group Dir.vertical 5 ⟨1, 2, 3, 4⟩
          [Widget.elem 3 1, Widget.elem 1 2])).2 =
        ([Widget.elem 3 1, Widget.elem 1 2].map
            (fun c => (measure c).2)).sum +
          (([Widget.elem 3 1, Widget.elem 1 2].length : ℚ) - 1) * 5 +
          (2 : ℚ) + 4 ∧
      ∃ M, (measure (Widget.group Dir.vertical 5 ⟨1, 2, 3, 4⟩
            [Widget.elem 3 1, Widget.elem 1 2])).1 = M + 1 + 3 ∧
        M ∈ [Widget.elem 3 1, Widget.elem 1 2].map (fun c => (measure c).1) ∧
        ∀ x ∈ [Widget.elem 3 1, Widget.elem 1 2].map (fun c => (measure c).1),
          x ≤ M)) :=
  ⟨by simp,
    by
      intro c hc
      rcases List.mem_cons.mp hc with rfl | hc
      · constructor <;> simp [measure]
      rcases List.mem_cons.mp hc with rfl | hc
      · constructor <;> simp [measure]
      · simp at hc,
    group_measure_formula 5 ⟨1, 2, 3, 4⟩ [Widget.elem 3 1, Widget.elem 1 2]
      (by simp)
      (by
        intro c hc
        rcases List.mem_cons.mp hc with rfl | hc
        · constructor <;> simp [measure]
        rcases List.mem_cons.mp hc with rfl | hc
        · constructor <;> simp [measure]
        · simp at hc)⟩

/-- The event assignment that delivers a single flag to a single
identifier and nothing to anyone else. -/
def evOnly (a flag : Nat) : Nat → Nat := fun e => if e = a then flag else 0

/-- Whether a pointer sample is still below the drag-start threshold
relative to the press origin. -/
def belowThr (thr ox oy : Int) (f : PointerFrame) : Bool :=
  decide (dragDist2 ox oy f.posX f.posY < thr * thr)

/-- A held frame below the threshold keeps the machine pressed and
reports exactly is-down to the owner. -/
lemma step_pressed_held_below (thr : Int) (hit : Int → Int → Option Nat)
    (cap : Option Nat) (a : Nat) (ox oy : Int) (f : PointerFrame)
    (h : Held f) (hb : dragDist2 ox oy f.posX f.posY < thr * thr) :
    stepMachine thr hit cap (MState.pressed a ox oy) f =
      (MState.pressed a ox oy, evOnly a kEventIsDown) := by
  obtain ⟨hd, _, hwu⟩ := h
  simp [stepMachine, pressEvents, hoverFlag, evOnly, hd, hwu, not_le.mpr hb]
  rfl

/-- A held frame at or past the threshold starts the drag: the machine
moves to dragging and reports exactly start-drag to the owner. -/
lemma step_pressed_held_reach (thr : Int) (hit : Int → Int → Option Nat)
    (cap : Option Nat) (a : Nat) (ox oy : Int) (f : PointerFrame)
    (h : Held f) (hb : thr * thr ≤ dragDist2 ox oy f.posX f.posY) :
    stepMachine thr hit cap (MState.pressed a ox oy) f =
      (MState.dragging a, evOnly a kEventStartDrag) := by
  obtain ⟨hd, _, hwu⟩ := h
  simp [stepMachine, pressEvents, hoverFlag, evOnly, hd, hwu, hb]
  rfl

/-- A held frame while dragging stays dragging and reports exactly
is-dragging to the owner. -/
lemma step_dragging_held (thr : Int) (hit : Int → Int → Option Nat)
    (cap : Option Nat) (a : Nat) (f : PointerFrame) (h : Held f) :
    stepMachine thr hit cap (MState.dragging a) f =
      (MState.dragging a, evOnly a kEventIsDragging) := by
  obtain ⟨hd, _, hwu⟩ := h
  simp [stepMachine, pressEvents, hoverFlag, evOnly, hd, hwu]
  rfl

/-- Releasing from pressed: went-up to the owner (plus at most an
independent hover flag), back to idle. -/
lemma step_pressed_up (thr : Int) (hit : Int → Int → Option Nat)
    (cap : Option Nat) (a : Nat) (ox oy : Int) (f : PointerFrame)
    (h : f.wentUp = true) :
    stepMachine thr hit cap (MState.pressed a ox oy) f =
      (MState.idle,
        fun e => evOnly a kEventWentUp e ||| hoverFlag hit cap f e) := by
  simp [stepMachine, pressEvents, evOnly, h]

/-- Releasing from dragging: end-drag to the owner (plus at most an
independent hover flag), back to idle. -/
lemma step_dragging_up (thr : Int) (hit : Int → Int → Option Nat)
    (cap : Option Nat) (a : Nat) (f : PointerFrame) (h : f.wentUp = true) :
    stepMachine thr hit cap (MState.dragging a) f =
      (MState.idle,
        fun e => evOnly a kEventEndDrag e ||| hoverFlag hit cap f e) := by
  simp [stepMachine, pressEvents, evOnly, h]

/-- While dragging, every held frame reports is-dragging and the
machine stays dragging. -/
lemma run_dragging_held (thr : Int) (hit : Int → Int → Option Nat)
    (cap : Option Nat) (a : Nat) (fs : List PointerFrame)
    (hfs : ∀ f ∈ fs, Held f) :
    runMachine thr hit cap (MState.dragging a) fs =
      (MState.dragging a, fs.map (fun _ => evOnly a kEventIsDragging)) := by
  induction fs with
  | nil => simp [runMachine]
  | cons f fs ih =>
    simp only [runMachine]
    rw [step_dragging_held thr hit cap a f (hfs f (List.mem_cons_self f fs))]
    simp [ih (fun g hg => hfs g (List.mem_cons_of_mem f hg))]

/-- Characterization of a press episode: over held frames starting from
pressed, the frames strictly before the drag threshold is first reached
each report exactly is-down; the first frame at or past the threshold
reports exactly start-drag; every later held frame reports exactly
is-dragging; the final state is dragging iff some frame reached the
threshold, else still pressed at the original press position. -/
lemma run_pressed_char (thr : Int) (hit : Int → Int → Option Nat)
    (cap : Option Nat) (a : Nat) (ox oy : Int) (fs : List PointerFrame)
    (hfs : ∀ f ∈ fs, Held f) :
    runMachine thr hit cap (MState.pressed a ox oy) fs =
      ((if fs.dropWhile (belowThr thr ox oy) = [] then MState.pressed a ox oy
        else MState.dragging a),
       (fs.takeWhile (belowThr thr ox oy)).map (fun _ => evOnly a kEventIsDown)
         ++ (match fs.dropWhile (belowThr thr ox oy) with
             | [] => []
             | _ :: rest =>
               evOnly a kEventStartDrag ::
                 rest.map (fun _ => evOnly a kEventIsDragging))) := by
  induction fs with
  | nil => simp [runMachine]
  | cons f fs ih =>
    have hf := hfs f (List.mem_cons_self f fs)
    have hfs' : ∀ g ∈ fs, Held g :=
      fun g hg => hfs g (List.mem_cons_of_mem f hg)
    by_cases hb : belowThr thr ox oy f = true
    · have hb' : dragDist2 ox oy f.posX f.posY < thr * thr :=
        of_decide_eq_true hb
      simp only [runMachine]
      rw [step_pressed_held_below thr hit cap a ox oy f hf hb']
      rw [List.takeWhile_cons_of_pos hb, List.dropWhile_cons_of_pos hb]
      simp [ih hfs']
    · have hb' : thr * thr ≤ dragDist2 ox oy f.posX f.posY := by
        have := of_decide_eq_false (eq_false_of_ne_true hb)
        exact not_lt.mp this
      simp only [runMachine]
      rw [step_pressed_held_reach thr hit cap a ox oy f hf hb']
      rw [List.takeWhile_cons_of_neg (by simp [hb]),
        List.dropWhile_cons_of_neg (by simp [hb])]
      rw [run_dragging_held thr hit cap a fs hfs']
      simp

/-- Counting over a constant-mapped list. -/
lemma countP_map_const {α : Type} (l : List α) (c : Nat → Nat)
    (p : (Nat → Nat) → Bool) :
    (l.map (fun _ => c)).countP p = if p c then l.length else 0 := by
  induction l with
  | nil => simp
  | cons x xs ih =>
    simp only [List.map_cons, List.countP_cons, ih, List.length_cons]
    split <;> simp

/-- The hover flag of a frame is either absent or exactly
`kEventHover`. -/
lemma hoverFlag_cases (hit : Int → Int → Option Nat) (cap : Option Nat)
    (f : PointerFrame) (e : Nat) :
    hoverFlag hit cap f e = 0 ∨ hoverFlag hit cap f e = kEventHover := by
  unfold hoverFlag
  split
  · right; rfl
  · left; rfl

/-- The interaction run of one press episode: the machine started in
`pressed` and fed the held frames of the episode. -/
def pressRun (thr : Int) (hit : Int → Int → Option Nat) (cap : Option Nat)
    (a : Nat) (ox oy : Int) (fs : List PointerFrame) :
    MState × List (Nat → Nat) :=
  runMachine thr hit cap (MState.pressed a ox oy) fs

/-- The events of the release frame that ends the episode. -/
def releaseEvents (thr : Int) (hit : Int → Int → Option Nat)
    (cap : Option Nat) (a : Nat) (ox oy : Int) (fs : List PointerFrame)
    (r : PointerFrame) : Nat → Nat :=
  (stepMachine thr hit cap (pressRun thr hit cap a ox oy fs).1 r).2

/-- `evOnly` delivers its flag to its owner. -/
lemma evOnly_self (a flag : Nat) : evOnly a flag a = flag := by simp [evOnly]

/-- A constant-mapped block of single-flag events contributes nothing to
the count of a bit-disjoint flag. -/
lemma countP_evOnly_zero {α : Type} (a flag test : Nat) (l : List α)
    (h : flag &&& test = 0) :
    (l.map (fun _ => evOnly a flag)).countP
      (fun ev => ev a &&& test != 0) = 0 := by
  rw [countP_map_const]
  have hp : ((evOnly a flag) a &&& test != 0) = false := by
    rw [evOnly_self, h]
    rfl
  rw [hp]
  rfl

/-- The hover flag never contributes to a flag bit other than hover. -/
lemma hoverFlag_and_zero (hit : Int → Int → Option Nat) (cap : Option Nat)
    (r : PointerFrame) (a t : Nat) (h64 : kEventHover &&& t = 0) :
    hoverFlag hit cap r a &&& t = 0 := by
  rcases hoverFlag_cases hit cap r a with hh | hh <;> rw [hh]
  · exact Nat.zero_and t
  · exact h64

/-- Combining press/drag flags with the hover flag leaves every
non-hover bit untouched. -/
lemma or_hover_and (hit : Int → Int → Option Nat) (cap : Option Nat)
    (r : PointerFrame) (a x t : Nat) (h64 : kEventHover &&& t = 0) :
    (x ||| hoverFlag hit cap r a) &&& t = x &&& t := by
  rw [Nat.and_distrib_right, hoverFlag_and_zero hit cap r a t h64,
    Nat.or_zero]

/-- C3: for a pressed element over a whole press episode (held frames
then a release): every held frame strictly before the drag-start
threshold is first reached reports exactly is-down; the first frame at
or past the threshold reports exactly start-drag and every later held
frame exactly is-dragging; start-drag is emitted at most once over the
episode, and exactly once when some frame reaches the threshold;
end-drag is never emitted while held, and is emitted on the release
exactly when a drag is in progress. -/
theorem drag_threshold_lifecycle (thr : Int) (hit : Int → Int → Option Nat)
    (cap : Option Nat) (a : Nat) (ox oy : Int) (fs : List PointerFrame)
    (r : PointerFrame) (hfs : ∀ f ∈ fs, Held f) (hr : r.wentUp = true) :
    (pressRun thr hit cap a ox oy fs).2 =
      (fs.takeWhile (belowThr thr ox oy)).map (fun _ => evOnly a kEventIsDown)
        ++ (match fs.dropWhile (belowThr thr ox oy) with
            | [] => []
            | _ :: rest =>
              evOnly a kEventStartDrag ::
                rest.map (fun _ => evOnly a kEventIsDragging)) ∧
    ((pressRun thr hit cap a ox oy fs).2 ++
        [releaseEvents thr hit cap a ox oy fs r]).countP
      (fun ev => ev a &&& kEventStartDrag != 0) ≤ 1 ∧
    ((∃ f ∈ fs, thr * thr ≤ dragDist2 ox oy f.posX f.posY) →
      ((pressRun thr hit cap a ox oy fs).2 ++
          [releaseEvents thr hit cap a ox oy fs r]).countP
        (fun ev => ev a &&& kEventStartDrag != 0) = 1) ∧
    (pressRun thr hit cap a ox oy fs).2.countP
      (fun ev => ev a &&& kEventEndDrag != 0) = 0 ∧
    (releaseEvents thr hit cap a ox oy fs r a &&& kEventEndDrag ≠ 0 ↔
      (pressRun thr hit cap a ox oy fs).1 = MState.dragging a) := by
  have hchar := run_pressed_char thr hit cap a ox oy fs hfs
  unfold releaseEvents pressRun
  rw [hchar]
  by_cases hd : fs.dropWhile (belowThr thr ox oy) = []
  · rw [hd]
    have hsp : (if ([] : List PointerFrame) = [] then MState.pressed a ox oy
        else MState.dragging a) = MState.pressed a ox oy := by simp
    rw [hsp, step_pressed_up thr hit cap a ox oy r hr]
    dsimp only
    have b1 : (kEventIsDown &&& kEventStartDrag != 0) = false := by decide
    have b4 : (kEventIsDown &&& kEventEndDrag != 0) = false := by decide
    have h2 : (kEventWentUp ||| hoverFlag hit cap r a) &&& kEventStartDrag
        = 0 := by
      rw [or_hover_and hit cap r a _ _ (by decide)]
      decide
    have h4 : (kEventWentUp ||| hoverFlag hit cap r a) &&& kEventEndDrag
        = 0 := by
      rw [or_hover_and hit cap r a _ _ (by decide)]
      decide
    refine ⟨rfl, ?_, ?_, ?_, ?_⟩
    · simp [List.countP_append, List.countP_cons, List.countP_replicate,
        evOnly_self, b1, h2]
    · rintro ⟨f, hf, hge⟩
      have hb := List.dropWhile_eq_nil_iff.mp hd f hf
      exact absurd (of_decide_eq_true hb) (not_lt.mpr hge)
    · simp [List.countP_append, List.countP_replicate, evOnly_self, b4]
    · simp [evOnly_self, h4]
  · obtain ⟨f0, rest, heq⟩ := List.exists_cons_of_ne_nil hd
    rw [heq]
    have hsd : (if (f0 :: rest : List PointerFrame) = [] then
        MState.pressed a ox oy else MState.dragging a) = MState.dragging a :=
      by simp
    rw [hsd, step_dragging_up thr hit cap a r hr]
    dsimp only
    have b1 : (kEventIsDown &&& kEventStartDrag != 0) = false := by decide
    have b2 : (kEventIsDragging &&& kEventStartDrag != 0) = false := by
      decide
    have b3 : (kEventStartDrag &&& kEventStartDrag != 0) = true := by decide
    have b4 : (kEventIsDown &&& kEventEndDrag != 0) = false := by decide
    have b5 : (kEventIsDragging &&& kEventEndDrag != 0) = false := by decide
    have b6 : (kEventStartDrag &&& kEventEndDrag != 0) = false := by decide
    have b7 : ¬(kEventStartDrag = 0) := by decide
    have h3 : (kEventEndDrag ||| hoverFlag hit cap r a) &&& kEventStartDrag
        = 0 := by
      rw [or_hover_and hit cap r a _ _ (by decide)]
      decide
    have h8 : (kEventEndDrag ||| hoverFlag hit cap r a) &&& kEventEndDrag
        = kEventEndDrag := by
      rw [or_hover_and hit cap r a _ _ (by decide)]
      decide
    refine ⟨rfl, ?_, fun _ => ?_, ?_, ?_⟩
    · simp [List.countP_append, List.countP_cons, List.countP_replicate,
        evOnly_self, b1, b2, b3, b7, h3]
    · simp [List.countP_append, List.countP_cons, List.countP_replicate,
        evOnly_self, b1, b2, b3, b7, h3]
    · simp [List.countP_append, List.countP_cons, List.countP_replicate,
        evOnly_self, b4, b5, b6]
    · have h9 : ¬(kEventEndDrag = 0) := by decide
      simp [evOnly_self, h8, h9]

/-- A concrete press episode: one frame below a threshold of 2 physical
pixels, one frame at the threshold, one further held frame. -/
def dragFrames : List PointerFrame :=
  [⟨1, 0, true, false, false, false⟩, ⟨2, 0, true, false, false, false⟩,
   ⟨5, 0, true, false, false, false⟩]

/-- The release frame ending the concrete press episode. -/
def dragRelease : PointerFrame := ⟨5, 0, false, false, true, false⟩

/-- Witness for C3 on the concrete episode `dragFrames` /
`dragRelease`. -/
theorem drag_threshold_lifecycle_witness :
    (∀ f ∈ dragFrames, Held f) ∧ dragRelease.wentUp = true ∧
    ((pressRun 2 (fun _ _ => some 7) none 7 0 0 dragFrames).2 =
      (dragFrames.takeWhile (belowThr 2 0 0)).map
          (fun _ => evOnly 7 kEventIsDown)
        ++ (match dragFrames.dropWhile (belowThr 2 0 0) with
            | [] => []
            | _ :: rest =>
              evOnly 7 kEventStartDrag ::
                rest.map (fun _ => evOnly 7 kEventIsDragging)) ∧
    ((pressRun 2 (fun _ _ => some 7) none 7 0 0 dragFrames).2 ++
        [releaseEvents 2 (fun _ _ => some 7) none 7 0 0 dragFrames
          dragRelease]).countP
      (fun ev => ev 7 &&& kEventStartDrag != 0) ≤ 1 ∧
    ((∃ f ∈ dragFrames, (2 : Int) * 2 ≤ dragDist2 0 0 f.posX f.posY) →
      ((pressRun 2 (fun _ _ => some 7) none 7 0 0 dragFrames).2 ++
          [releaseEvents 2 (fun _ _ => some 7) none 7 0 0 dragFrames
            dragRelease]).countP
        (fun ev => ev 7 &&& kEventStartDrag != 0) = 1) ∧
    (pressRun 2 (fun _ _ => some 7) none 7 0 0 dragFrames).2.countP
      (fun ev => ev 7 &&& kEventEndDrag != 0) = 0 ∧
    (releaseEvents 2 (fun _ _ => some 7) none 7 0 0 dragFrames dragRelease 7
        &&& kEventEndDrag ≠ 0 ↔
      (pressRun 2 (fun _ _ => some 7) none 7 0 0 dragFrames).1 =
        MState.dragging 7)) :=
  ⟨by decide, rfl,
    drag_threshold_lifecycle 2 (fun _ _ => some 7) none 7 0 0 dragFrames
      dragRelease (by decide) rfl⟩

end FlatUI